import Mathlib

set_option maxRecDepth 10000

/-!
Shallow embedding of `gocept.recipe.bowerstaticbundler` (file
`src/gocept/recipe/bowerstaticbundler/__init__.py`).

Modelling conventions:
* Python strings (file contents, paths, names) are `List Char` (`Str`).
* The filesystem of source resources is a function `Str → Option Str`
  (path to content); `none` models an unreadable/missing file.
* The running `md5` object is modelled by the exact byte stream fed to
  `m.update` (`BundleResult.digest`); the real code hex-digests exactly
  this stream, so equality of streams corresponds to equality of
  versions, and distinct streams to the digests of distinct inputs.
* The two minifiers `rjsmin.jsmin` / `rcssmin.cssmin` are external
  libraries and are passed in as opaque function parameters.
* Fallible operations return `Except`; an uncaught Python exception is
  an `Except.error` value that aborts the component build.
-/

abbrev Str := List Char

/-- Content of the constant `BUNDLE_DIR_NAME = 'bowerstatic_bundle'`. -/
def BUNDLE_DIR_NAME : Str := "bowerstatic_bundle".data

/-- Content of the constant `BUNDLE_EXTENSIONS = ['.js', '.css']`. -/
def BUNDLE_EXTENSIONS : List Str := [".js".data, ".css".data]

/-- Content of `RESOURCE_EXTENSIONS = ['.pt', '.ico', '.gif', '.png', '.jpg']`. -/
def RESOURCE_EXTENSIONS : List Str :=
  [".pt".data, ".ico".data, ".gif".data, ".png".data, ".jpg".data]

/-- The two external minifiers registered in the `MINIFIERS` dict. -/
structure Minifiers where
  jsmin : Str → Str
  cssmin : Str → Str

/-- Lookup in the `MINIFIERS` dict: `.js` and `.css` have minifiers. -/
def minifierFor (M : Minifiers) (ext : Str) : Option (Str → Str) :=
  if ext = ".js".data then some M.jsmin
  else if ext = ".css".data then some M.cssmin
  else none

/-- Model of `os.path.basename`: the part after the last slash. -/
def basename (p : Str) : Str :=
  (p.reverse.takeWhile (fun c => c ≠ '/')).reverse

/-- Model of `os.path.dirname`: everything before the last slash, with
trailing slashes stripped unless the head is all slashes. -/
def dirname (p : Str) : Str :=
  let head := (p.reverse.dropWhile (fun c => c ≠ '/')).reverse
  if head ≠ [] ∧ head.any (fun c => c ≠ '/') then
    (head.reverse.dropWhile (fun c => c = '/')).reverse
  else head

/-- Model of `os.path.join` for two components (posixpath semantics). -/
def path_join (a b : Str) : Str :=
  if b.head? = some '/' then b
  else if a = [] ∨ a.getLast? = some '/' then a ++ b
  else a ++ '/' :: b

/-- Model of `Recipe._sanitize_filename`: strip one leading and one
trailing character when the token starts with a quote (`filename[1:-1]`),
then keep only the part before `?` and before `#`. -/
def sanitize_filename (f0 : Str) : Str :=
  let f1 := if f0.head? = some '"' ∨ f0.head? = some '\'' then f0.tail.dropLast else f0
  let f2 := if '?' ∈ f1 then f1.takeWhile (fun c => c ≠ '?') else f1
  if '#' ∈ f2 then f2.takeWhile (fun c => c ≠ '#') else f2

/-- Model of Python `content.replace(old, new, 1)`: replace the first
occurrence of `old` (leftmost), leaving the rest untouched. -/
def replaceFirst (old new : Str) : Str → Str
  | [] => if old = [] then new else []
  | c :: cs =>
    if old.isPrefixOf (c :: cs) then new ++ (c :: cs).drop old.length
    else c :: replaceFirst old new cs

/-- Helper for the `url(...)` scanner: split a string at the first `)`
(the closing delimiter of the non-greedy capture), returning the part
before it and the remainder after it. -/
def splitAtCloseParen : Str → Option (Str × Str)
  | [] => none
  | c :: cs =>
    if c = ')' then some ([], cs)
    else
      match splitAtCloseParen cs with
      | some (tok, rest) => some (c :: tok, rest)
      | none => none

/-- Fuel-indexed scanner for `re.findall("url\((.*?)\)", content)`:
at each position, if `url(` matches, capture (non-greedily) up to the
first `)` and resume after it; otherwise advance one character. -/
def findUrlTokensAux : Nat → Str → List Str
  | 0, _ => []
  | fuel + 1, s =>
    if ("url(".data).isPrefixOf s then
      match splitAtCloseParen (s.drop 4) with
      | some (tok, rest) => tok :: findUrlTokensAux fuel rest
      | none => []
    else
      match s with
      | [] => []
      | _ :: cs => findUrlTokensAux fuel cs

/-- Model of `CSS_URL_REGEXP.findall(content)`. -/
def findUrlTokens (s : Str) : List Str := findUrlTokensAux s.length s

/-- Staged symlinks in the target directory, as an association list
`target path → link source`.  `os.path.lexists` + `os.unlink` followed by
`os.symlink` replaces any previous entry for the same target. -/
def stageSymlink (staged : List (Str × Str)) (target src : Str) : List (Str × Str) :=
  (staged.filter (fun p => p.1 ≠ target)) ++ [(target, src)]

/-- Body of the `for filename in additional_files` loop of
`Recipe.copy_linked_resources`: sanitize the matched token, stage a
symlink for it under its base filename in the target directory, and
replace the first occurrence of the sanitized filename in the content
with the base filename of the staged target. -/
def linkResourceStep (targetDir path : Str) (acc : Str × List (Str × Str)) (fn0 : Str) :
    Str × List (Str × Str) :=
  let filename := sanitize_filename fn0
  let target := path_join targetDir (basename filename)
  let src := path_join (dirname path) filename
  (replaceFirst filename (basename target) acc.1, stageSymlink acc.2 target src)

/-- Model of `Recipe.copy_linked_resources(content, path)`; also takes and
returns the staged-symlink state of the target directory. -/
def copy_linked_resources (targetDir path content : Str)
    (staged : List (Str × Str)) : Str × List (Str × Str) :=
  (findUrlTokens content).foldl (linkResourceStep targetDir path) (content, staged)

/-- One entry of the `resources_by_type` mapping:
`{'package': ..., 'path': ...}`. -/
structure ResolvedResource where
  package : Str
  path : Str
deriving DecidableEq

/-- Error raised when `open(resource['path'])` fails. -/
structure ResourceReadError where
  path : Str
deriving DecidableEq

/-- Error raised by the topological sort on a cyclic dependency graph. -/
structure CycleError : Type where
deriving DecidableEq

/-- Result of `Recipe.create_bundles_by_type`: the byte stream fed to the
running md5 (`digest`), the bundle files written (name, content), the list
of bundle file names returned, and the staged symlinks. -/
structure BundleResult where
  digest : Str
  files : List (Str × Str)
  names : List Str
  staged : List (Str × Str)
deriving DecidableEq

/-- Per-resource body of the inner loop of `Recipe.create_bundles_by_type`:
read the file (fatal error if unreadable), rewrite stylesheet references
for `.css` (which also updates the staged symlinks), then minify.
Returns the content to be written and the new staged state. -/
def bundleStep (M : Minifiers) (fs : Str → Option Str) (targetDir ext : Str)
    (r : ResolvedResource) (st : List (Str × Str)) :
    Except ResourceReadError (Str × List (Str × Str)) :=
  match fs r.path with
  | none => .error ⟨r.path⟩
  | some content0 =>
    let rew :=
      if ext = ".css".data then copy_linked_resources targetDir r.path content0 st
      else (content0, st)
    let content :=
      match minifierFor M ext with
      | some minify => minify rew.1
      | none => rew.1
    .ok (content, rew.2)

/-- Inner loop of `Recipe.create_bundles_by_type` over the resources of
one extension: for each resource, compute its content via `bundleStep`,
feed the content to the digest, and append the content plus a `'\n'`
separator to the bundle file. -/
def bundleResources (M : Minifiers) (fs : Str → Option Str) (targetDir ext : Str) :
    List ResolvedResource → Str → Str → List (Str × Str) →
    Except ResourceReadError (Str × Str × List (Str × Str))
  | [], d, b, st => .ok (d, b, st)
  | r :: rs, d, b, st =>
    match bundleStep M fs targetDir ext r st with
    | .error e => .error e
    | .ok (content, st') =>
      bundleResources M fs targetDir ext rs (d ++ content) (b ++ content ++ ['\n']) st'

/-- Outer loop of `Recipe.create_bundles_by_type` over the
`resources_by_type` items: skip extensions outside `BUNDLE_EXTENSIONS`;
for each bundled extension write one file `bundle<ext>` and record its
name. -/
def bundlesGo (M : Minifiers) (fs : Str → Option Str) (targetDir : Str) :
    List (Str × List ResolvedResource) → BundleResult →
    Except ResourceReadError BundleResult
  | [], res => .ok res
  | (ext, rs) :: rest, res =>
    if ext ∈ BUNDLE_EXTENSIONS then
      match bundleResources M fs targetDir ext rs res.digest [] res.staged with
      | .error e => .error e
      | .ok (d, b, st) =>
        bundlesGo M fs targetDir rest
          { digest := d,
            files := res.files ++ [("bundle".data ++ ext, b)],
            names := res.names ++ ["bundle".data ++ ext],
            staged := st }
    else bundlesGo M fs targetDir rest res

/-- Model of `Recipe.create_bundles_by_type(resources_by_type)`. -/
def create_bundles_by_type (M : Minifiers) (fs : Str → Option Str) (targetDir : Str)
    (rbt : List (Str × List ResolvedResource)) : Except ResourceReadError BundleResult :=
  bundlesGo M fs targetDir rbt { digest := [], files := [], names := [], staged := [] }

/-- Model of `Recipe.copy_resources_by_type(resources_by_type)`: for each
extension in `RESOURCE_EXTENSIONS`, record the relative path
`<package>/<basename>` of every copied resource. -/
def copy_resources_by_type (rbt : List (Str × List ResolvedResource)) : List Str :=
  rbt.foldl (fun copied entry =>
    if entry.1 ∈ RESOURCE_EXTENSIONS then
      copied ++ entry.2.map (fun r => path_join r.package (basename r.path))
    else copied) []

/-- Model of `resources_by_type.setdefault(ext, []).append(...)` on an
insertion-ordered association list. -/
def setdefaultAppend (acc : List (Str × List ResolvedResource)) (k : Str)
    (v : ResolvedResource) : List (Str × List ResolvedResource) :=
  if acc.any (fun p => p.1 = k) then
    acc.map (fun p => if p.1 = k then (p.1, p.2 ++ [v]) else p)
  else acc ++ [(k, [v])]

/-- The attributes of `inclusion.resource` (and its component) read by
`Recipe.get_resources_by_type`. -/
structure ResourceInfo where
  ext : Str
  file_path : Str
  packageName : Str
  packageVersion : Str
  collectionName : Str
deriving DecidableEq

/-- Modelled from the spec: the external `bowerstatic.toposort.topological_sort`
is not part of this repository; section 4.1 of the spec gives its contract
(each node exactly once, all transitive dependencies strictly earlier,
`CycleError` on a cyclic relation, deterministic for a fixed input).  This
picks the first not-yet-emitted node all of whose dependencies were
already emitted. -/
def pickReady {α : Type} [DecidableEq α] (deps : α → List α) (acc remaining : List α) :
    Option α :=
  remaining.find? (fun n => (deps n).all (fun d => d ∈ acc))

/-- Modelled from the spec: fuel-indexed main loop of the topological
sort; fails with `CycleError` when no node is ready. -/
def topoAux {α : Type} [DecidableEq α] (deps : α → List α) :
    Nat → List α → List α → Except CycleError (List α)
  | 0, acc, remaining => if remaining.isEmpty then .ok acc else .error ⟨⟩
  | fuel + 1, acc, remaining =>
    if remaining.isEmpty then .ok acc
    else
      match pickReady deps acc remaining with
      | none => .error ⟨⟩
      | some n => topoAux deps fuel (acc ++ [n]) (remaining.erase n)

/-- Modelled from the spec: `bowerstatic.toposort.topological_sort(nodes, deps)`. -/
def topological_sort {α : Type} [DecidableEq α] (nodes : List α) (deps : α → List α) :
    Except CycleError (List α) :=
  topoAux deps nodes.length [] nodes

/-- Model of `Recipe.get_resources_by_type(bower, environ)`: `none` models
an environ without the `bowerstatic.inclusions` key (returns `{}`);
otherwise topologically sort the inclusions and classify the resolved
resources by extension.  `get_filename` models
`bower.get_filename(collection, component, version, file_path)`;
inclusion nodes are indices `ι`, their resource data given by `resOf`. -/
def get_resources_by_type {ι : Type} [DecidableEq ι]
    (get_filename : Str → Str → Str → Str → Str)
    (inclusions : Option (List ι)) (depf : ι → List ι) (resOf : ι → ResourceInfo) :
    Except CycleError (List (Str × List ResolvedResource)) :=
  match inclusions with
  | none => .ok []
  | some incl =>
    match topological_sort incl depf with
    | .error e => .error e
    | .ok sorted =>
      .ok (sorted.foldl (fun acc i =>
        let r := resOf i
        setdefaultAppend acc r.ext
          ⟨r.packageName,
           get_filename r.collectionName r.packageName r.packageVersion r.file_path⟩) [])

/-- Observable build steps of one component build, in execution order. -/
inductive BuildEvent : Type where
  | ensureDir : BuildEvent
  | classify : BuildEvent
  | copyResource : Str → BuildEvent
  | writeBundle : Str → BuildEvent
  | writeManifest : BuildEvent
deriving DecidableEq

/-- Errors that abort one component build. -/
inductive BuildError : Type where
  | cycle : CycleError → BuildError
  | read : ResourceReadError → BuildError
deriving DecidableEq

/-- The `.bower.json` manifest: `{'name': ..., 'main': resources + bundles,
'version': ...}` (version modelled as the digest input stream). -/
structure Manifest where
  name : Str
  main : List Str
  version : Str
deriving DecidableEq

/-- Result of one component build in `Recipe.update`. -/
structure ComponentOutput where
  manifest : Manifest
  bundleFiles : List (Str × Str)
  staged : List (Str × Str)
  events : List BuildEvent
deriving DecidableEq

/-- The per-component bundle directory name:
`BUNDLE_DIR_NAME + '_' + component_name.replace('.', '_')`. -/
def bundleDirName (componentName : Str) : Str :=
  BUNDLE_DIR_NAME ++ '_' :: (componentName.map (fun c => if c = '.' then '_' else c))

/-- Model of the per-component body of `Recipe.update`: compute the bundle
directory name, ensure the target directory, classify resources, copy
auxiliary resources, build the bundles, then write the manifest.  The
event list records the execution order of these steps. -/
def buildComponent {ι : Type} [DecidableEq ι] (M : Minifiers) (fs : Str → Option Str)
    (get_filename : Str → Str → Str → Str → Str) (targetRoot componentName : Str)
    (inclusions : Option (List ι)) (depf : ι → List ι) (resOf : ι → ResourceInfo) :
    Except BuildError ComponentOutput :=
  let dirName := bundleDirName componentName
  let targetDir := path_join targetRoot dirName
  match get_resources_by_type get_filename inclusions depf resOf with
  | .error e => .error (.cycle e)
  | .ok rbt =>
    let copied := copy_resources_by_type rbt
    match create_bundles_by_type M fs targetDir rbt with
    | .error e => .error (.read e)
    | .ok br =>
      .ok { manifest := { name := dirName, main := copied ++ br.names, version := br.digest },
            bundleFiles := br.files,
            staged := br.staged,
            events := [.ensureDir, .classify]
              ++ copied.map .copyResource
              ++ br.names.map .writeBundle
              ++ [.writeManifest] }

/-! Derived notions used to state the claims. -/

/-- Concatenation of a list of byte strings. -/
def concatAll : List Str → Str
  | [] => []
  | s :: ss => s ++ concatAll ss

/-- Association-list lookup on written files (name to content). -/
def lookupStr : List (Str × Str) → Str → Option Str
  | [], _ => none
  | p :: ps, k => if p.1 = k then some p.2 else lookupStr ps k

/-- The transformed content of one resource as bundled by
`create_bundles_by_type`: the file content, stylesheet-rewritten for
`.css`, then minified.  A pure function of the resource (the staged
symlink state does not influence the rewritten content). -/
def transform1 (M : Minifiers) (fs : Str → Option Str) (targetDir ext : Str)
    (r : ResolvedResource) : Str :=
  let c := (fs r.path).getD []
  let c1 := if ext = ".css".data then (copy_linked_resources targetDir r.path c []).1 else c
  match minifierFor M ext with
  | some minify => minify c1
  | none => c1

/-- The exact bytes of the bundle file of one extension: each transformed
content followed by one newline separator. -/
def bundleBytes (M : Minifiers) (fs : Str → Option Str) (targetDir ext : Str)
    (rs : List ResolvedResource) : Str :=
  concatAll (rs.map (fun r => transform1 M fs targetDir ext r ++ ['\n']))

/-- The bytes fed into the running digest for one extension: the
transformed contents only, with no newline separators. -/
def digestBytes (M : Minifiers) (fs : Str → Option Str) (targetDir ext : Str)
    (rs : List ResolvedResource) : Str :=
  concatAll (rs.map (transform1 M fs targetDir ext))

/-- Restriction of a classified mapping to the bundle-eligible extensions. -/
def eligibleEntries (rbt : List (Str × List ResolvedResource)) :
    List (Str × List ResolvedResource) :=
  rbt.filter (fun e => e.1 ∈ BUNDLE_EXTENSIONS)

/-- The bundle files `create_bundles_by_type` writes for a mapping. -/
def expectedFiles (M : Minifiers) (fs : Str → Option Str) (targetDir : Str)
    (rbt : List (Str × List ResolvedResource)) : List (Str × Str) :=
  (eligibleEntries rbt).map (fun e => ("bundle".data ++ e.1, bundleBytes M fs targetDir e.1 e.2))

/-- The bundle names `create_bundles_by_type` records for a mapping. -/
def expectedNames (rbt : List (Str × List ResolvedResource)) : List Str :=
  (eligibleEntries rbt).map (fun e => "bundle".data ++ e.1)

/-- The whole digest input stream for a mapping, in bundle-then-resource
order. -/
def digestExpected (M : Minifiers) (fs : Str → Option Str) (targetDir : Str)
    (rbt : List (Str × List ResolvedResource)) : Str :=
  concatAll ((eligibleEntries rbt).map (fun e => digestBytes M fs targetDir e.1 e.2))

/-- Discriminator for bundle-write events. -/
def isWriteBundle : BuildEvent → Bool
  | .writeBundle _ => true
  | _ => false

/-- Discriminator for auxiliary-copy events. -/
def isCopyResource : BuildEvent → Bool
  | .copyResource _ => true
  | _ => false

/-- The ordering asserted by the claim: every bundle write happens
strictly before every auxiliary resource copy. -/
def bundlesBeforeCopies (evs : List BuildEvent) : Prop :=
  ∀ i j : Fin evs.length, isWriteBundle (evs.get i) → isCopyResource (evs.get j) →
    (i : Nat) < (j : Nat)

/-- The ordering the code actually realizes: every auxiliary resource copy
happens strictly before every bundle write. -/
def copiesBeforeBundles (evs : List BuildEvent) : Prop :=
  ∀ i j : Fin evs.length, isCopyResource (evs.get i) → isWriteBundle (evs.get j) →
    (i : Nat) < (j : Nat)

/-- A cyclic dependency relation among the given nodes: some node is a
transitive dependency of itself. -/
def DepCycle {α : Type} (deps : α → List α) (nodes : List α) : Prop :=
  ∃ n ∈ nodes, Relation.TransGen (fun a b => a ∈ deps b) n n

/-- Every direct dependency of every element occurs strictly earlier in
the list. -/
def GoodOrder {α : Type} [DecidableEq α] (deps : α → List α) (l : List α) : Prop :=
  ∀ a ∈ l, ∀ d ∈ deps a, d ∈ l ∧ l.indexOf d < l.indexOf a

/-! Concrete inputs used by counterexamples and witnesses. -/

/-- Identity minifiers (minification is irrelevant to the claims checked
on concrete inputs). -/
def idMinifiers : Minifiers := ⟨id, id⟩

/-- A filesystem with a single script file `/a.js` holding `a`. -/
def fsSingleJs : Str → Option Str :=
  fun p => if p = "/a.js".data then some "a".data else none

/-- A classified mapping with a single script resource. -/
def rbtSingleJs : List (Str × List ResolvedResource) :=
  [(".js".data, [⟨"p".data, "/a.js".data⟩])]

/-- A filesystem with one script file `/src/w.js` holding `x`. -/
def fsWidget : Str → Option Str :=
  fun p => if p = "/src/w.js".data then some "x".data else none

/-- A path lookup mapping each declared file path below `/src/`. -/
def gfSrc : Str → Str → Str → Str → Str :=
  fun _ _ _ fp => "/src/".data ++ fp

/-- An inclusion graph with two independent inclusions. -/
def depNone : Nat → List Nat := fun _ => []

/-- Resource data: inclusion 0 is an icon, inclusion 1 is a script. -/
def resWidget : Nat → ResourceInfo :=
  fun i =>
    if i = 0 then ⟨".png".data, "i.png".data, "p".data, "1".data, "c".data⟩
    else ⟨".js".data, "w.js".data, "p".data, "1".data, "c".data⟩

/-- The classified mapping the widget inputs produce. -/
def rbtWidget : List (Str × List ResolvedResource) :=
  [(".png".data, [⟨"p".data, "/src/i.png".data⟩]),
   (".js".data, [⟨"p".data, "/src/w.js".data⟩])]

/-- A filesystem on which no file can be opened. -/
def fsNone : Str → Option Str := fun _ => none

/-- A filesystem agreeing with `fsWidget` on both widget resource paths
but differing everywhere else. -/
def fsWidgetJunk : Str → Option Str :=
  fun p =>
    if p = "/src/w.js".data then some "x".data
    else if p = "/src/i.png".data then none
    else some "junk".data

/-- A two-node cyclic dependency relation: 0 depends on 1 and 1 on 0. -/
def depsCycW : Nat → List Nat :=
  fun n => if n = 0 then [1] else if n = 1 then [0] else []

/-- A two-node acyclic dependency relation: 1 depends on 0. -/
def depsLinW : Nat → List Nat := fun n => if n = 1 then [0] else []


/-! Helper lemmas about the string primitives. -/

lemma replaceFirst_here (old new v : Str) :
    replaceFirst old new (old ++ v) = new ++ v := by
  cases old with
  | nil =>
    cases v with
    | nil => simp [replaceFirst]
    | cons c cs => simp [replaceFirst]
  | cons o os =>
    show replaceFirst (o :: os) new (o :: (os ++ v)) = new ++ v
    rw [replaceFirst]
    rw [if_pos]
    · show new ++ (o :: (os ++ v)).drop (o :: os).length = new ++ v
      have : (o :: (os ++ v)) = (o :: os) ++ v := by simp
      rw [this, List.drop_left]
    · exact List.isPrefixOf_iff_prefix.mpr ⟨v, by simp⟩

lemma replaceFirst_append (old new u v : Str)
    (hfirst : ∀ i, i < u.length → ¬ old <+: (u ++ old ++ v).drop i) :
    replaceFirst old new (u ++ old ++ v) = u ++ new ++ v := by
  induction u with
  | nil =>
    simpa using replaceFirst_here old new v
  | cons a u ih =>
    have hcons : (a :: u) ++ old ++ v = a :: (u ++ old ++ v) := by simp
    rw [hcons, replaceFirst, if_neg, ih]
    · simp
    · intro i hi
      have := hfirst (i + 1) (by simpa using Nat.succ_lt_succ hi)
      simpa [hcons] using this
    · intro hpre
      have := hfirst 0 (by simp)
      simp only [List.drop_zero] at this
      exact this (by rw [hcons]; exact List.isPrefixOf_iff_prefix.mp hpre)

lemma takeWhile_ne_append (x : Char) (n s : Str) (hx : x ∉ n) :
    (n ++ x :: s).takeWhile (fun c => c ≠ x) = n := by
  induction n with
  | nil =>
    rw [List.nil_append, List.takeWhile_cons, if_neg (by simp)]
  | cons a n ih =>
    have ha : a ≠ x := fun h => hx (h ▸ List.mem_cons_self a n)
    have hx' : x ∉ n := fun h => hx (List.mem_cons_of_mem a h)
    rw [List.cons_append, List.takeWhile_cons, if_pos (decide_eq_true ha), ih hx']

lemma takeWhile_ne_all (x : Char) (n : Str) (hx : x ∉ n) :
    n.takeWhile (fun c => c ≠ x) = n := by
  induction n with
  | nil => rfl
  | cons a n ih =>
    have ha : a ≠ x := fun h => hx (h ▸ List.mem_cons_self a n)
    have hx' : x ∉ n := fun h => hx (List.mem_cons_of_mem a h)
    rw [List.takeWhile_cons, if_pos (decide_eq_true ha), ih hx']

lemma sanitize_quoted_query (n s : Str) (hq : '?' ∉ n) (hh : '#' ∉ n) :
    sanitize_filename ('"' :: ((n ++ '?' :: s) ++ ['"'])) = n := by
  have h2 : '?' ∈ n ++ '?' :: s := List.mem_append_right n (List.mem_cons_self _ _)
  unfold sanitize_filename
  simp only [List.head?_cons, List.tail_cons, List.dropLast_concat, true_or, if_true]
  rw [if_pos h2, takeWhile_ne_append '?' n s hq, if_neg hh]

lemma basename_of_no_slash (x : Str) (hx : '/' ∉ x) : basename x = x := by
  unfold basename
  rw [takeWhile_ne_all '/' x.reverse (by simpa using hx), List.reverse_reverse]

lemma basename_append_slash (l x : Str) (hx : '/' ∉ x) :
    basename (l ++ '/' :: x) = x := by
  unfold basename
  have : (l ++ '/' :: x).reverse = x.reverse ++ '/' :: l.reverse := by simp
  rw [this, takeWhile_ne_append '/' x.reverse l.reverse (by simpa using hx),
    List.reverse_reverse]

lemma slash_not_mem_basename (p : Str) : '/' ∉ basename p := by
  unfold basename
  intro h
  rw [List.mem_reverse] at h
  have := List.mem_takeWhile_imp h
  simp at this

lemma basename_path_join (T x : Str) (hx : '/' ∉ x) :
    basename (path_join T x) = x := by
  unfold path_join
  have hxh : x.head? ≠ some '/' := by
    intro h
    cases x with
    | nil => simp at h
    | cons c cs =>
      simp only [List.head?_cons, Option.some.injEq] at h
      exact hx (h ▸ List.mem_cons_self c cs)
  rw [if_neg hxh]
  by_cases hT : T = [] ∨ T.getLast? = some '/'
  · rw [if_pos hT]
    rcases hT with hT | hT
    · subst hT
      simpa using basename_of_no_slash x hx
    · have hrev : T.reverse.head? = some '/' := by
        rw [List.head?_reverse]; exact hT
      cases hc : T.reverse with
      | nil => rw [hc] at hrev; simp at hrev
      | cons c cs =>
        rw [hc] at hrev
        simp only [List.head?_cons, Option.some.injEq] at hrev
        unfold basename
        have : (T ++ x).reverse = x.reverse ++ c :: cs := by simp [← hc]
        rw [this, hrev, takeWhile_ne_append '/' x.reverse cs (by simpa using hx),
          List.reverse_reverse]
  · rw [if_neg hT]
    exact basename_append_slash T x hx

/-! Lemmas about `copy_linked_resources`. -/

lemma foldl_link_fst (T P : Str) (ts : List Str) :
    ∀ (c : Str) (st st' : List (Str × Str)),
      (ts.foldl (linkResourceStep T P) (c, st)).1 =
      (ts.foldl (linkResourceStep T P) (c, st')).1 := by
  induction ts with
  | nil => intro c st st'; rfl
  | cons t ts ih =>
    intro c st st'
    simp only [List.foldl_cons]
    exact ih _ _ _

lemma clr_fst_indep (T P c : Str) (st st' : List (Str × Str)) :
    (copy_linked_resources T P c st).1 = (copy_linked_resources T P c st').1 :=
  foldl_link_fst T P (findUrlTokens c) c st st'

lemma clr_single_token (T P content tok : Str) (staged : List (Str × Str))
    (htok : findUrlTokens content = [tok]) :
    copy_linked_resources T P content staged =
      linkResourceStep T P (content, staged) tok := by
  unfold copy_linked_resources
  rw [htok]
  rfl

/-! Lemmas about the Bundle Builder. -/

lemma bundleStep_ok (M : Minifiers) (fs : Str → Option Str) (T ext : Str)
    (r : ResolvedResource) (st : List (Str × Str)) (c : Str) (hc : fs r.path = some c) :
    bundleStep M fs T ext r st =
      .ok (transform1 M fs T ext r,
        (if ext = ".css".data then copy_linked_resources T r.path c st else (c, st)).2) := by
  unfold bundleStep transform1
  simp only [hc, Option.getD_some]
  by_cases hcss : ext = ".css".data
  · simp only [if_pos hcss]
    rw [clr_fst_indep T r.path c st []]
  · simp only [if_neg hcss]

lemma bundleStep_err (M : Minifiers) (fs : Str → Option Str) (T ext : Str)
    (r : ResolvedResource) (st : List (Str × Str)) (hc : fs r.path = none) :
    bundleStep M fs T ext r st = .error ⟨r.path⟩ := by
  unfold bundleStep
  simp only [hc]

lemma bundleResources_ok (M : Minifiers) (fs : Str → Option Str) (T ext : Str) :
    ∀ (rs : List ResolvedResource) (d b : Str) (st : List (Str × Str)),
      (∀ r ∈ rs, (fs r.path).isSome) →
      ∃ st', bundleResources M fs T ext rs d b st =
        .ok (d ++ digestBytes M fs T ext rs, b ++ bundleBytes M fs T ext rs, st') := by
  intro rs
  induction rs with
  | nil =>
    intro d b st _
    exact ⟨st, by simp [bundleResources, digestBytes, bundleBytes, concatAll]⟩
  | cons r rs ih =>
    intro d b st h
    obtain ⟨c, hc⟩ := Option.isSome_iff_exists.mp (h r (List.mem_cons_self r rs))
    obtain ⟨st', hrec⟩ := ih (d ++ transform1 M fs T ext r)
      (b ++ transform1 M fs T ext r ++ ['\n'])
      ((if ext = ".css".data then copy_linked_resources T r.path c st else (c, st)).2)
      (fun r' hr' => h r' (List.mem_cons_of_mem r hr'))
    have e1 : digestBytes M fs T ext (r :: rs) =
        transform1 M fs T ext r ++ digestBytes M fs T ext rs := by
      simp [digestBytes, concatAll]
    have e2 : bundleBytes M fs T ext (r :: rs) =
        (transform1 M fs T ext r ++ ['\n']) ++ bundleBytes M fs T ext rs := by
      simp [bundleBytes, concatAll]
    refine ⟨st', ?_⟩
    simp only [bundleResources, bundleStep_ok M fs T ext r st c hc]
    rw [hrec, e1, e2]
    simp [List.append_assoc]

lemma bundleResources_readable (M : Minifiers) (fs : Str → Option Str) (T ext : Str) :
    ∀ (rs : List ResolvedResource) (d b : Str) (st : List (Str × Str))
      (out : Str × Str × List (Str × Str)),
      bundleResources M fs T ext rs d b st = .ok out → ∀ r ∈ rs, (fs r.path).isSome := by
  intro rs
  induction rs with
  | nil => intro d b st out _ r hr; cases hr
  | cons r rs ih =>
    intro d b st out hok r' hr'
    cases hc : fs r.path with
    | none =>
      rw [bundleResources, bundleStep_err M fs T ext r st hc] at hok
      cases hok
    | some c =>
      rw [bundleResources, bundleStep_ok M fs T ext r st c hc] at hok
      rcases List.mem_cons.mp hr' with h | h
      · subst h; simp [hc]
      · exact ih _ _ _ _ hok r' h

lemma bundleResources_error (M : Minifiers) (fs : Str → Option Str) (T ext : Str)
    (rs : List ResolvedResource) (d b : Str) (st : List (Str × Str))
    (hbad : ∃ r ∈ rs, fs r.path = none) :
    ∃ e, bundleResources M fs T ext rs d b st = .error e := by
  cases h : bundleResources M fs T ext rs d b st with
  | error e => exact ⟨e, rfl⟩
  | ok out =>
    obtain ⟨r, hr, hn⟩ := hbad
    have := bundleResources_readable M fs T ext rs d b st out h r hr
    rw [hn] at this
    cases this

lemma bundlesGo_ok (M : Minifiers) (fs : Str → Option Str) (T : Str) :
    ∀ (rbt : List (Str × List ResolvedResource)) (res : BundleResult),
      (∀ e ∈ rbt, e.1 ∈ BUNDLE_EXTENSIONS → ∀ r ∈ e.2, (fs r.path).isSome) →
      ∃ st', bundlesGo M fs T rbt res =
        .ok { digest := res.digest ++ digestExpected M fs T rbt,
              files := res.files ++ expectedFiles M fs T rbt,
              names := res.names ++ expectedNames rbt,
              staged := st' } := by
  intro rbt
  induction rbt with
  | nil =>
    intro res _
    refine ⟨res.staged, ?_⟩
    simp [bundlesGo, digestExpected, expectedFiles, expectedNames, eligibleEntries, concatAll]
  | cons e rest ih =>
    obtain ⟨ext, rs⟩ := e
    intro res h
    by_cases helig : ext ∈ BUNDLE_EXTENSIONS
    · have hread : ∀ r ∈ rs, (fs r.path).isSome :=
        h (ext, rs) (List.mem_cons_self _ _) helig
      obtain ⟨st1, h1⟩ := bundleResources_ok M fs T ext rs res.digest [] res.staged hread
      obtain ⟨st', h2⟩ := ih
        { digest := res.digest ++ digestBytes M fs T ext rs,
          files := res.files ++ [("bundle".data ++ ext, bundleBytes M fs T ext rs)],
          names := res.names ++ ["bundle".data ++ ext],
          staged := st1 }
        (fun e' he' helig' r hr => h e' (List.mem_cons_of_mem _ he') helig' r hr)
      have ed : digestExpected M fs T ((ext, rs) :: rest) =
          digestBytes M fs T ext rs ++ digestExpected M fs T rest := by
        simp [digestExpected, eligibleEntries, helig, concatAll]
      have ef : expectedFiles M fs T ((ext, rs) :: rest) =
          ("bundle".data ++ ext, bundleBytes M fs T ext rs) :: expectedFiles M fs T rest := by
        simp [expectedFiles, eligibleEntries, helig]
      have en : expectedNames ((ext, rs) :: rest) =
          ("bundle".data ++ ext) :: expectedNames rest := by
        simp [expectedNames, eligibleEntries, helig]
      refine ⟨st', ?_⟩
      simp only [bundlesGo, if_pos helig, h1, List.nil_append]
      rw [h2, ed, ef, en]
      simp [List.append_assoc]
    · obtain ⟨st', h2⟩ := ih res
        (fun e' he' helig' r hr => h e' (List.mem_cons_of_mem _ he') helig' r hr)
      have ed : digestExpected M fs T ((ext, rs) :: rest) = digestExpected M fs T rest := by
        simp [digestExpected, eligibleEntries, helig]
      have ef : expectedFiles M fs T ((ext, rs) :: rest) = expectedFiles M fs T rest := by
        simp [expectedFiles, eligibleEntries, helig]
      have en : expectedNames ((ext, rs) :: rest) = expectedNames rest := by
        simp [expectedNames, eligibleEntries, helig]
      refine ⟨st', ?_⟩
      simp only [bundlesGo, if_neg helig]
      rw [h2, ed, ef, en]

lemma bundlesGo_readable (M : Minifiers) (fs : Str → Option Str) (T : Str) :
    ∀ (rbt : List (Str × List ResolvedResource)) (res : BundleResult) (out : BundleResult),
      bundlesGo M fs T rbt res = .ok out →
      ∀ e ∈ rbt, e.1 ∈ BUNDLE_EXTENSIONS → ∀ r ∈ e.2, (fs r.path).isSome := by
  intro rbt
  induction rbt with
  | nil => intro res out _ e he; cases he
  | cons e0 rest ih =>
    obtain ⟨ext, rs⟩ := e0
    intro res out hok e he helig r hr
    by_cases hel0 : ext ∈ BUNDLE_EXTENSIONS
    · rw [bundlesGo, if_pos hel0] at hok
      cases hbr : bundleResources M fs T ext rs res.digest [] res.staged with
      | error e' => rw [hbr] at hok; cases hok
      | ok trip =>
        rw [hbr] at hok
        rcases List.mem_cons.mp he with h | h
        · subst h
          exact bundleResources_readable M fs T ext rs _ _ _ _ hbr r hr
        · exact ih _ _ hok e h helig r hr
    · rw [bundlesGo, if_neg hel0] at hok
      rcases List.mem_cons.mp he with h | h
      · rw [h] at helig; exact absurd helig hel0
      · exact ih _ _ hok e h helig r hr

lemma create_bundles_char (M : Minifiers) (fs : Str → Option Str) (T : Str)
    (rbt : List (Str × List ResolvedResource)) (out : BundleResult)
    (hok : create_bundles_by_type M fs T rbt = .ok out) :
    out.digest = digestExpected M fs T rbt ∧ out.files = expectedFiles M fs T rbt ∧
      out.names = expectedNames rbt := by
  have hread := bundlesGo_readable M fs T rbt _ out hok
  obtain ⟨st', h⟩ := bundlesGo_ok M fs T rbt ⟨[], [], [], []⟩ hread
  rw [create_bundles_by_type, h] at hok
  cases hok
  simp

lemma append_inj_right (l s t : Str) (h : l ++ s = l ++ t) : s = t :=
  List.append_cancel_left h

lemma lookup_expectedFiles (M : Minifiers) (fs : Str → Option Str) (T : Str) :
    ∀ (l : List (Str × List ResolvedResource)),
      (l.map Prod.fst).Nodup → ∀ ext rs, (ext, rs) ∈ l → ext ∈ BUNDLE_EXTENSIONS →
      lookupStr (expectedFiles M fs T l) ("bundle".data ++ ext) =
        some (bundleBytes M fs T ext rs) := by
  intro l
  induction l with
  | nil => intro _ ext rs hm; cases hm
  | cons e rest ih =>
    obtain ⟨e1, rs1⟩ := e
    intro hnd ext rs hm helig
    have hnd' : (e1 :: rest.map Prod.fst).Nodup := by simpa using hnd
    have hnd1 : (rest.map Prod.fst).Nodup := (List.nodup_cons.mp hnd').2
    have hknot : e1 ∉ rest.map Prod.fst := (List.nodup_cons.mp hnd').1
    rcases List.mem_cons.mp hm with h | h
    · injection h with h1 h2
      subst h1
      subst h2
      have ef : expectedFiles M fs T ((ext, rs) :: rest) =
          ("bundle".data ++ ext, bundleBytes M fs T ext rs) :: expectedFiles M fs T rest := by
        simp [expectedFiles, eligibleEntries, helig]
      rw [ef]
      simp [lookupStr]
    · have hne : e1 ≠ ext := fun hh => hknot (hh ▸ List.mem_map_of_mem Prod.fst h)
      by_cases hel1 : e1 ∈ BUNDLE_EXTENSIONS
      · have ef : expectedFiles M fs T ((e1, rs1) :: rest) =
            ("bundle".data ++ e1, bundleBytes M fs T e1 rs1) :: expectedFiles M fs T rest := by
          simp [expectedFiles, eligibleEntries, hel1]
        have hkey : ¬ ("bundle".data ++ e1 = "bundle".data ++ ext) :=
          fun hk => hne (append_inj_right _ _ _ hk)
        rw [ef]
        simp only [lookupStr]
        rw [if_neg hkey]
        exact ih hnd1 ext rs h helig
      · have ef : expectedFiles M fs T ((e1, rs1) :: rest) = expectedFiles M fs T rest := by
          simp [expectedFiles, eligibleEntries, hel1]
        rw [ef]
        exact ih hnd1 ext rs h helig

lemma lookup_expectedFiles_none (M : Minifiers) (fs : Str → Option Str) (T : Str) :
    ∀ (l : List (Str × List ResolvedResource)) (ext : Str), ext ∉ l.map Prod.fst →
      lookupStr (expectedFiles M fs T l) ("bundle".data ++ ext) = none := by
  intro l
  induction l with
  | nil => intro ext _; rfl
  | cons e rest ih =>
    obtain ⟨e1, rs1⟩ := e
    intro ext hknot
    have hne : e1 ≠ ext := by
      intro hh
      exact hknot (by simp [← hh])
    have hrest : ext ∉ rest.map Prod.fst := by
      intro hh
      exact hknot (by simp [hh])
    by_cases hel1 : e1 ∈ BUNDLE_EXTENSIONS
    · have ef : expectedFiles M fs T ((e1, rs1) :: rest) =
          ("bundle".data ++ e1, bundleBytes M fs T e1 rs1) :: expectedFiles M fs T rest := by
        simp [expectedFiles, eligibleEntries, hel1]
      have hkey : ¬ ("bundle".data ++ e1 = "bundle".data ++ ext) :=
        fun hk => hne (append_inj_right _ _ _ hk)
      rw [ef]
      simp only [lookupStr]
      rw [if_neg hkey]
      exact ih ext hrest
    · have ef : expectedFiles M fs T ((e1, rs1) :: rest) = expectedFiles M fs T rest := by
        simp [expectedFiles, eligibleEntries, hel1]
      rw [ef]
      exact ih ext hrest

lemma mem_expectedNames (l : List (Str × List ResolvedResource)) (ext : Str)
    (rs : List ResolvedResource) (hm : (ext, rs) ∈ l) (helig : ext ∈ BUNDLE_EXTENSIONS) :
    ("bundle".data ++ ext) ∈ expectedNames l := by
  unfold expectedNames eligibleEntries
  exact List.mem_map.mpr ⟨(ext, rs), List.mem_filter.mpr ⟨hm, by simpa⟩, rfl⟩

lemma not_mem_expectedNames (l : List (Str × List ResolvedResource)) (ext : Str)
    (h : ext ∉ l.map Prod.fst) : ("bundle".data ++ ext) ∉ expectedNames l := by
  intro hmem
  obtain ⟨e, he, heq⟩ := List.mem_map.mp hmem
  have h1 : e.1 = ext := append_inj_right _ _ _ heq
  exact h (h1 ▸ List.mem_map_of_mem Prod.fst (List.mem_of_mem_filter he))

lemma create_bundles_error (M : Minifiers) (fs : Str → Option Str) (T : Str)
    (rbt : List (Str × List ResolvedResource))
    (hbad : ∃ e ∈ rbt, e.1 ∈ BUNDLE_EXTENSIONS ∧ ∃ r ∈ e.2, fs r.path = none) :
    ∃ err, create_bundles_by_type M fs T rbt = .error err := by
  cases h : create_bundles_by_type M fs T rbt with
  | error e => exact ⟨e, rfl⟩
  | ok out =>
    obtain ⟨e, he, helig, r, hr, hn⟩ := hbad
    have := bundlesGo_readable M fs T rbt _ out h e he helig r hr
    rw [hn] at this
    cases this

lemma create_bundles_ok_total (M : Minifiers) (fs : Str → Option Str) (T : Str)
    (rbt : List (Str × List ResolvedResource))
    (h : ∀ e ∈ rbt, e.1 ∈ BUNDLE_EXTENSIONS → ∀ r ∈ e.2, (fs r.path).isSome) :
    ∃ out, create_bundles_by_type M fs T rbt = .ok out := by
  obtain ⟨st', hh⟩ := bundlesGo_ok M fs T rbt ⟨[], [], [], []⟩ h
  exact ⟨_, hh⟩

/-! Congruence in the source filesystem: the bundle build reads only the
resolved resource paths. -/

lemma bundleStep_congr (M : Minifiers) (fs fs' : Str → Option Str) (T ext : Str)
    (r : ResolvedResource) (st : List (Str × Str)) (hag : fs r.path = fs' r.path) :
    bundleStep M fs T ext r st = bundleStep M fs' T ext r st := by
  unfold bundleStep
  rw [hag]

lemma bundleResources_congr (M : Minifiers) (fs fs' : Str → Option Str) (T ext : Str) :
    ∀ (rs : List ResolvedResource) (d b : Str) (st : List (Str × Str)),
      (∀ r ∈ rs, fs r.path = fs' r.path) →
      bundleResources M fs T ext rs d b st = bundleResources M fs' T ext rs d b st := by
  intro rs
  induction rs with
  | nil => intro d b st _; rfl
  | cons r rs ih =>
    intro d b st h
    rw [bundleResources, bundleResources,
      bundleStep_congr M fs fs' T ext r st (h r (List.mem_cons_self r rs))]
    cases hbs : bundleStep M fs' T ext r st with
    | error e => rfl
    | ok p =>
      obtain ⟨content, st'⟩ := p
      exact ih _ _ _ (fun r' hr' => h r' (List.mem_cons_of_mem r hr'))

lemma bundlesGo_congr (M : Minifiers) (fs fs' : Str → Option Str) (T : Str) :
    ∀ (rbt : List (Str × List ResolvedResource)) (res : BundleResult),
      (∀ e ∈ rbt, ∀ r ∈ e.2, fs r.path = fs' r.path) →
      bundlesGo M fs T rbt res = bundlesGo M fs' T rbt res := by
  intro rbt
  induction rbt with
  | nil => intro res _; rfl
  | cons e rest ih =>
    obtain ⟨ext, rs⟩ := e
    intro res h
    by_cases helig : ext ∈ BUNDLE_EXTENSIONS
    · rw [bundlesGo, bundlesGo, if_pos helig, if_pos helig,
        bundleResources_congr M fs fs' T ext rs res.digest [] res.staged
          (fun r hr => h (ext, rs) (List.mem_cons_self _ _) r hr)]
      cases hbr : bundleResources M fs' T ext rs res.digest [] res.staged with
      | error e' => rfl
      | ok trip =>
        obtain ⟨d, b, st⟩ := trip
        exact ih _ (fun e' he' r hr => h e' (List.mem_cons_of_mem _ he') r hr)
    · rw [bundlesGo, bundlesGo, if_neg helig, if_neg helig]
      exact ih _ (fun e' he' r hr => h e' (List.mem_cons_of_mem _ he') r hr)

lemma create_bundles_congr (M : Minifiers) (fs fs' : Str → Option Str) (T : Str)
    (rbt : List (Str × List ResolvedResource))
    (h : ∀ e ∈ rbt, ∀ r ∈ e.2, fs r.path = fs' r.path) :
    create_bundles_by_type M fs T rbt = create_bundles_by_type M fs' T rbt :=
  bundlesGo_congr M fs fs' T rbt _ h

lemma linkResourceStep_eq (T P : Str) (acc : Str × List (Str × Str)) (fn0 : Str) :
    linkResourceStep T P acc fn0 =
      (replaceFirst (sanitize_filename fn0)
         (basename (path_join T (basename (sanitize_filename fn0)))) acc.1,
       stageSymlink acc.2 (path_join T (basename (sanitize_filename fn0)))
         (path_join (dirname P) (sanitize_filename fn0))) := rfl

lemma copies_before_append (A B : List BuildEvent)
    (hA : ∀ e ∈ A, isWriteBundle e = false) (hB : ∀ e ∈ B, isCopyResource e = false) :
    copiesBeforeBundles (A ++ B) := by
  intro i j hci hbj
  have hi : (i : Nat) < A.length := by
    by_contra hge
    push_neg at hge
    have hyB : (A ++ B).get i ∈ B := by
      rw [List.get_eq_getElem, List.getElem_append_right hge]
      exact List.getElem_mem _
    rw [hB _ hyB] at hci
    cases hci
  have hj : ¬ ((j : Nat) < A.length) := by
    intro hjA
    have hyA : (A ++ B).get j ∈ A := by
      rw [List.get_eq_getElem, List.getElem_append_left hjA]
      exact List.getElem_mem _
    rw [hA _ hyA] at hbj
    cases hbj
  omega

/-! Claim theorems. -/

/-- C9: the filename sanitizer strips the first and last character of any
token that begins with a quote character, unconditionally — it never
checks for a matching closing quote. -/
theorem C9_sanitize_strips_unconditionally (f : Str)
    (hq : f.head? = some '"' ∨ f.head? = some '\'')
    (h1 : '?' ∉ f.tail.dropLast) (h2 : '#' ∉ f.tail.dropLast) :
    sanitize_filename f = f.tail.dropLast := by
  simp only [sanitize_filename]
  rw [if_pos hq, if_neg h1, if_neg h2]

/-- C9 witness: the unterminated token `"foo` (opening quote, no closing
quote) is sanitized to `fo`. -/
theorem C9_witness : sanitize_filename "\"foo".data = "fo".data :=
  C9_sanitize_strips_unconditionally "\"foo".data (Or.inl rfl) (by decide) (by decide)

/-- C2 counterexample: for the stylesheet content
`url("icons/logo.png?v=2")` the rewriter stages `logo.png` correctly, but
the returned content is `url("logo.png?v=2")`: the query string remains in
the content, contradicting the claim that the reference is rewritten with
no query string remaining. -/
theorem C2_counterexample :
    copy_linked_resources "/out".data "/pkg/css/main.css".data
        "url(\"icons/logo.png?v=2\")".data [] =
      ("url(\"logo.png?v=2\")".data,
       [("/out/logo.png".data, "/pkg/css/icons/logo.png".data)]) ∧
    '?' ∈ (copy_linked_resources "/out".data "/pkg/css/main.css".data
        "url(\"icons/logo.png?v=2\")".data []).1 :=
  ⟨by decide, by decide⟩

/-- C2 amended: for a stylesheet whose single `url(...)` token is a quoted
filename carrying a query-string suffix, the rewriter stages the
referenced file under its suffix-stripped base filename, and rewrites the
content by replacing the first occurrence of the sanitized (quote- and
suffix-stripped) path token with that base filename; the query-string
suffix itself remains in the content. -/
theorem C2_stylesheet_rewrite (T P content pre post n s : Str)
    (staged : List (Str × Str))
    (hshape : content = pre ++ "url(\"".data ++ n ++ '?' :: s ++ "\")".data ++ post)
    (htok : findUrlTokens content = ['"' :: ((n ++ '?' :: s) ++ ['"'])])
    (hq : '?' ∉ n) (hh : '#' ∉ n)
    (hfirst : ∀ i, i < pre.length + 5 → ¬ n <+: content.drop i) :
    copy_linked_resources T P content staged =
      (pre ++ "url(\"".data ++ basename n ++ '?' :: s ++ "\")".data ++ post,
       stageSymlink staged (path_join T (basename n)) (path_join (dirname P) n)) := by
  rw [clr_single_token T P content _ staged htok, linkResourceStep_eq,
    sanitize_quoted_query n s hq hh,
    basename_path_join T (basename n) (slash_not_mem_basename n)]
  simp only [Prod.mk.injEq]
  constructor
  · have hc : content = (pre ++ "url(\"".data) ++ n ++ (('?' :: s ++ "\")".data) ++ post) := by
      rw [hshape]; simp [List.append_assoc]
    have hu : (pre ++ "url(\"".data).length = pre.length + 5 := by
      rw [List.length_append]; rfl
    rw [hc, replaceFirst_append n (basename n) (pre ++ "url(\"".data)
      (('?' :: s ++ "\")".data) ++ post) ?hf]
    · simp [List.append_assoc]
    case hf =>
      intro i hi
      rw [← hc]
      exact hfirst i (by rw [hu] at hi; exact hi)
  · trivial

/-- C2 witness: the scenario `url("icons/logo.png?v=2")` stages
`logo.png` and rewrites the content to `url("logo.png?v=2")`. -/
theorem C2_witness :
    copy_linked_resources "/out".data "/pkg/css/main.css".data
        "url(\"icons/logo.png?v=2\")".data [] =
      ([] ++ "url(\"".data ++ basename "icons/logo.png".data ++
         '?' :: "v=2".data ++ "\")".data ++ [],
       stageSymlink [] (path_join "/out".data (basename "icons/logo.png".data))
         (path_join (dirname "/pkg/css/main.css".data) "icons/logo.png".data)) :=
  C2_stylesheet_rewrite "/out".data "/pkg/css/main.css".data
    "url(\"icons/logo.png?v=2\")".data [] [] "icons/logo.png".data "v=2".data []
    (by decide) (by decide) (by decide) (by decide) (by decide)

/-- C10: the textual replacement of the rewriter applies to the earliest
occurrence of the sanitized filename anywhere in the content — here an
occurrence before the `url(...)` token — leaving the `url(...)` reference
itself unrewritten. -/
theorem C10_replace_hits_earliest_occurrence (T P u w post tok n : Str)
    (staged : List (Str × Str))
    (hsan : sanitize_filename tok = n)
    (htok : findUrlTokens (u ++ n ++ w ++ "url(".data ++ tok ++ ')' :: post) = [tok])
    (hfirst : ∀ i, i < u.length →
      ¬ n <+: (u ++ n ++ w ++ "url(".data ++ tok ++ ')' :: post).drop i) :
    copy_linked_resources T P (u ++ n ++ w ++ "url(".data ++ tok ++ ')' :: post) staged =
      (u ++ basename n ++ w ++ "url(".data ++ tok ++ ')' :: post,
       stageSymlink staged (path_join T (basename n)) (path_join (dirname P) n)) := by
  rw [clr_single_token T P _ _ staged htok, linkResourceStep_eq, hsan,
    basename_path_join T (basename n) (slash_not_mem_basename n)]
  simp only [Prod.mk.injEq]
  constructor
  · have hc : u ++ n ++ w ++ "url(".data ++ tok ++ ')' :: post =
        u ++ n ++ (w ++ "url(".data ++ tok ++ ')' :: post) := by
      simp [List.append_assoc]
    rw [hc, replaceFirst_append n (basename n) u (w ++ "url(".data ++ tok ++ ')' :: post)
      ?hf]
    · simp [List.append_assoc]
    case hf =>
      intro i hi
      rw [← hc]
      exact hfirst i hi
  · trivial

/-- C10 witness: in `/*icons/a.png*/url(icons/a.png)` the occurrence
inside the leading comment is replaced, producing
`/*a.png*/url(icons/a.png)`; the `url(...)` reference is untouched. -/
theorem C10_witness :
    copy_linked_resources "/out".data "/p/main.css".data
        "/*icons/a.png*/url(icons/a.png)".data [] =
      ("/*".data ++ basename "icons/a.png".data ++ "*/".data ++ "url(".data ++
         "icons/a.png".data ++ ')' :: [],
       stageSymlink [] (path_join "/out".data (basename "icons/a.png".data))
         (path_join (dirname "/p/main.css".data) "icons/a.png".data)) :=
  C10_replace_hits_earliest_occurrence "/out".data "/p/main.css".data
    "/*".data "*/".data [] "icons/a.png".data "icons/a.png".data []
    (by decide) (by decide) (by decide)

lemma buildComponent_eq {ι : Type} [DecidableEq ι] (M : Minifiers) (fs : Str → Option Str)
    (gf : Str → Str → Str → Str → Str) (targetRoot componentName : Str)
    (incl : Option (List ι)) (depf : ι → List ι) (resOf : ι → ResourceInfo) :
    buildComponent M fs gf targetRoot componentName incl depf resOf =
      match get_resources_by_type gf incl depf resOf with
      | .error e => .error (.cycle e)
      | .ok rbt =>
        match create_bundles_by_type M fs
            (path_join targetRoot (bundleDirName componentName)) rbt with
        | .error e => .error (.read e)
        | .ok br =>
          .ok { manifest := { name := bundleDirName componentName,
                              main := copy_resources_by_type rbt ++ br.names,
                              version := br.digest },
                bundleFiles := br.files,
                staged := br.staged,
                events := [.ensureDir, .classify]
                  ++ (copy_resources_by_type rbt).map .copyResource
                  ++ br.names.map .writeBundle ++ [.writeManifest] } := rfl

/-- C1 counterexample: for the single-resource script bundle with content
`a`, the bundle file holds the bytes `a\n` but the stream fed into the
running digest is just `a`: the newline separator written after each
resource is not folded into the digest, so the Version is not the digest
of the exact bytes written to the bundle files. -/
theorem C1_counterexample :
    create_bundles_by_type idMinifiers fsSingleJs "/t".data rbtSingleJs =
      .ok ⟨"a".data, [("bundle.js".data, "a\n".data)], ["bundle.js".data], []⟩ ∧
    ("a".data : Str) ≠ concatAll ([("bundle.js".data, "a\n".data)].map Prod.snd) :=
  ⟨by rfl, by decide⟩

/-- C1 amended: the digest input stream consists of each resource's
transformed (rewritten, minified) content, in bundle-then-resource order,
excluding the newline separators; the bundle files themselves hold the
contents with a newline appended after each resource. -/
theorem C1_digest_stream (M : Minifiers) (fs : Str → Option Str) (T : Str)
    (rbt : List (Str × List ResolvedResource)) (out : BundleResult)
    (hok : create_bundles_by_type M fs T rbt = .ok out) :
    out.digest = digestExpected M fs T rbt ∧
    concatAll (out.files.map Prod.snd) =
      concatAll ((eligibleEntries rbt).map (fun e => bundleBytes M fs T e.1 e.2)) := by
  obtain ⟨hd, hf, _⟩ := create_bundles_char M fs T rbt out hok
  refine ⟨hd, ?_⟩
  rw [hf]
  unfold expectedFiles
  rw [List.map_map]
  exact rfl

/-- C1 witness: the amended statement instantiated at the single-resource
script bundle. -/
theorem C1_witness :
    ("a".data : Str) = digestExpected idMinifiers fsSingleJs "/t".data rbtSingleJs ∧
    concatAll ([("bundle.js".data, "a\n".data)].map Prod.snd) =
      concatAll ((eligibleEntries rbtSingleJs).map
        (fun e => bundleBytes idMinifiers fsSingleJs "/t".data e.1 e.2)) :=
  C1_digest_stream idMinifiers fsSingleJs "/t".data rbtSingleJs
    ⟨"a".data, [("bundle.js".data, "a\n".data)], ["bundle.js".data], []⟩ (by rfl)

/-- C4: for every bundle-eligible extension with resources in the
classified mapping, the builder records the name `bundle<ext>` and writes
a file of that name whose bytes are exactly the concatenation, in
dependency order, of each resource's rewritten-then-minified content
followed by one newline; for a bundle-eligible extension absent from the
mapping, no such file or name exists. -/
theorem C4_bundle_files (M : Minifiers) (fs : Str → Option Str) (T : Str)
    (rbt : List (Str × List ResolvedResource)) (out : BundleResult)
    (hnodup : (rbt.map Prod.fst).Nodup)
    (hok : create_bundles_by_type M fs T rbt = .ok out) :
    (∀ ext rs, (ext, rs) ∈ rbt → ext ∈ BUNDLE_EXTENSIONS →
      lookupStr out.files ("bundle".data ++ ext) = some (bundleBytes M fs T ext rs) ∧
      ("bundle".data ++ ext) ∈ out.names) ∧
    (∀ ext, ext ∈ BUNDLE_EXTENSIONS → ext ∉ rbt.map Prod.fst →
      ("bundle".data ++ ext) ∉ out.names ∧
      lookupStr out.files ("bundle".data ++ ext) = none) := by
  obtain ⟨_, hf, hn⟩ := create_bundles_char M fs T rbt out hok
  constructor
  · intro ext rs hm helig
    rw [hf, hn]
    exact ⟨lookup_expectedFiles M fs T rbt hnodup ext rs hm helig,
      mem_expectedNames rbt ext rs hm helig⟩
  · intro ext _ hndk
    rw [hf, hn]
    exact ⟨not_mem_expectedNames rbt ext hndk,
      lookup_expectedFiles_none M fs T rbt ext hndk⟩

/-- C4 witness: instantiated at the single-resource script bundle. -/
theorem C4_witness :
    lookupStr [("bundle.js".data, "a\n".data)] ("bundle".data ++ ".js".data) =
      some (bundleBytes idMinifiers fsSingleJs "/t".data ".js".data
        [⟨"p".data, "/a.js".data⟩]) ∧
    ("bundle".data ++ ".js".data) ∈ [("bundle.js".data : Str)] :=
  (C4_bundle_files idMinifiers fsSingleJs "/t".data rbtSingleJs
      ⟨"a".data, [("bundle.js".data, "a\n".data)], ["bundle.js".data], []⟩
      (by decide) (by rfl)).1
    ".js".data [⟨"p".data, "/a.js".data⟩] (by decide) (by decide)

/-- C8: if some resource of a bundle-eligible extension cannot be opened,
the bundle build returns an error which the component build propagates
(aborting it); if every bundled resource is readable, the bundle build
completes without error. -/
theorem C8_read_error_aborts {ι : Type} [DecidableEq ι] (M : Minifiers)
    (fs : Str → Option Str) (gf : Str → Str → Str → Str → Str)
    (targetRoot componentName : Str) (incl : Option (List ι)) (depf : ι → List ι)
    (resOf : ι → ResourceInfo) (rbt : List (Str × List ResolvedResource))
    (hrbt : get_resources_by_type gf incl depf resOf = .ok rbt) :
    ((∃ e ∈ rbt, e.1 ∈ BUNDLE_EXTENSIONS ∧ ∃ r ∈ e.2, fs r.path = none) →
      ∃ err, create_bundles_by_type M fs
          (path_join targetRoot (bundleDirName componentName)) rbt = .error err ∧
        buildComponent M fs gf targetRoot componentName incl depf resOf =
          .error (.read err)) ∧
    ((∀ e ∈ rbt, e.1 ∈ BUNDLE_EXTENSIONS → ∀ r ∈ e.2, (fs r.path).isSome) →
      ∃ out, create_bundles_by_type M fs
          (path_join targetRoot (bundleDirName componentName)) rbt = .ok out) := by
  constructor
  · intro hbad
    obtain ⟨err, herr⟩ := create_bundles_error M fs
      (path_join targetRoot (bundleDirName componentName)) rbt hbad
    refine ⟨err, herr, ?_⟩
    rw [buildComponent_eq]
    simp only [hrbt, herr]
  · exact create_bundles_ok_total M fs _ rbt

/-- C8 witness: with a filesystem on which no file opens, the widget
component build aborts with a read error. -/
theorem C8_witness :
    ∃ err, create_bundles_by_type idMinifiers fsNone
        (path_join "/t".data (bundleDirName "widget".data)) rbtWidget = .error err ∧
      buildComponent idMinifiers fsNone gfSrc "/t".data "widget".data
        (some [0, 1]) depNone resWidget = .error (.read err) :=
  (C8_read_error_aborts idMinifiers fsNone gfSrc "/t".data "widget".data
      (some [0, 1]) depNone resWidget rbtWidget (by rfl)).1
    (by decide)

/-- C7: the component build is a deterministic function of the inclusion
data and the contents of the resolved resource files: two builds whose
filesystems agree on every resolved resource path produce identical
results (in particular byte-identical bundle files and an identical
Version), whatever else differs. -/
theorem C7_deterministic {ι : Type} [DecidableEq ι] (M : Minifiers)
    (fs fs' : Str → Option Str) (gf : Str → Str → Str → Str → Str)
    (targetRoot componentName : Str) (incl : Option (List ι)) (depf : ι → List ι)
    (resOf : ι → ResourceInfo) (rbt : List (Str × List ResolvedResource))
    (hrbt : get_resources_by_type gf incl depf resOf = .ok rbt)
    (hagree : ∀ e ∈ rbt, ∀ r ∈ e.2, fs r.path = fs' r.path) :
    buildComponent M fs gf targetRoot componentName incl depf resOf =
      buildComponent M fs' gf targetRoot componentName incl depf resOf := by
  rw [buildComponent_eq, buildComponent_eq]
  simp only [hrbt]
  rw [create_bundles_congr M fs fs'
    (path_join targetRoot (bundleDirName componentName)) rbt hagree]

/-- C7 witness: two widget builds over filesystems that agree on the two
resolved resource paths but differ elsewhere produce identical output. -/
theorem C7_witness :
    buildComponent idMinifiers fsWidget gfSrc "/t".data "widget".data
        (some [0, 1]) depNone resWidget =
      buildComponent idMinifiers fsWidgetJunk gfSrc "/t".data "widget".data
        (some [0, 1]) depNone resWidget :=
  C7_deterministic idMinifiers fsWidget fsWidgetJunk gfSrc "/t".data "widget".data
    (some [0, 1]) depNone resWidget rbtWidget (by rfl) (by decide)

/-- C3 counterexample: for a component with one icon and one script
resource, the recorded execution order of `Recipe.update` is
ensure-directory, classify, copy the auxiliary resource, write the
bundle, write the manifest — the auxiliary copy happens before the bundle
write, so the claimed ordering (every bundle written before any auxiliary
copy) is violated. -/
theorem C3_counterexample :
    buildComponent idMinifiers fsWidget gfSrc "/t".data "widget".data
        (some [0, 1]) depNone resWidget = .ok
      { manifest := { name := bundleDirName "widget".data,
                      main := ["p/i.png".data, "bundle.js".data],
                      version := "x".data },
        bundleFiles := [("bundle.js".data, "x\n".data)],
        staged := [],
        events := [.ensureDir, .classify, .copyResource "p/i.png".data,
                   .writeBundle "bundle.js".data, .writeManifest] } ∧
    ¬ bundlesBeforeCopies [.ensureDir, .classify, .copyResource "p/i.png".data,
        .writeBundle "bundle.js".data, .writeManifest] :=
  ⟨by rfl, by unfold bundlesBeforeCopies; decide⟩

/-- C3 amended: every successful component build executes, in order:
ensure output directory, classify resources, copy all auxiliary
resources, write all bundle files, write the manifest — in particular
every auxiliary resource is copied before any bundle file is written. -/
theorem C3_step_order {ι : Type} [DecidableEq ι] (M : Minifiers)
    (fs : Str → Option Str) (gf : Str → Str → Str → Str → Str)
    (targetRoot componentName : Str) (incl : Option (List ι)) (depf : ι → List ι)
    (resOf : ι → ResourceInfo) (out : ComponentOutput)
    (hok : buildComponent M fs gf targetRoot componentName incl depf resOf = .ok out) :
    ∃ copies bundles : List BuildEvent,
      out.events = [.ensureDir, .classify] ++ copies ++ bundles ++ [.writeManifest] ∧
      (∀ e ∈ copies, isCopyResource e = true) ∧
      (∀ e ∈ bundles, isWriteBundle e = true) ∧
      copiesBeforeBundles out.events := by
  rw [buildComponent_eq] at hok
  cases hrbt : get_resources_by_type gf incl depf resOf with
  | error e => rw [hrbt] at hok; cases hok
  | ok rbt =>
    simp only [hrbt] at hok
    cases hbr : create_bundles_by_type M fs
        (path_join targetRoot (bundleDirName componentName)) rbt with
    | error e => simp only [hbr] at hok; cases hok
    | ok br =>
      simp only [hbr] at hok
      injection hok with h
      subst h
      refine ⟨(copy_resources_by_type rbt).map .copyResource,
        br.names.map .writeBundle, rfl, ?_, ?_, ?_⟩
      · intro e he
        obtain ⟨p, _, rfl⟩ := List.mem_map.mp he
        rfl
      · intro e he
        obtain ⟨p, _, rfl⟩ := List.mem_map.mp he
        rfl
      · show copiesBeforeBundles ([BuildEvent.ensureDir, .classify]
          ++ (copy_resources_by_type rbt).map .copyResource
          ++ br.names.map .writeBundle ++ [.writeManifest])
        have hshape : [BuildEvent.ensureDir, .classify]
            ++ (copy_resources_by_type rbt).map .copyResource
            ++ br.names.map .writeBundle ++ [.writeManifest]
            = ([BuildEvent.ensureDir, .classify]
                ++ (copy_resources_by_type rbt).map .copyResource)
              ++ (br.names.map .writeBundle ++ [.writeManifest]) := by
          simp [List.append_assoc]
        rw [hshape]
        apply copies_before_append
        · intro e he
          rcases List.mem_append.mp he with h | h
          · simp only [List.mem_cons, List.mem_singleton] at h
            rcases h with h | h | h
            · subst h; rfl
            · subst h; rfl
            · cases h
          · obtain ⟨p, _, rfl⟩ := List.mem_map.mp h
            rfl
        · intro e he
          rcases List.mem_append.mp he with h | h
          · obtain ⟨p, _, rfl⟩ := List.mem_map.mp h
            rfl
          · simp only [List.mem_singleton] at h
            subst h
            rfl

/-- C3 witness: the amended step order instantiated at the widget build. -/
theorem C3_witness :
    ∃ copies bundles : List BuildEvent,
      ([.ensureDir, .classify, .copyResource "p/i.png".data,
        .writeBundle "bundle.js".data, .writeManifest] : List BuildEvent) =
        [.ensureDir, .classify] ++ copies ++ bundles ++ [.writeManifest] ∧
      (∀ e ∈ copies, isCopyResource e = true) ∧
      (∀ e ∈ bundles, isWriteBundle e = true) ∧
      copiesBeforeBundles [.ensureDir, .classify, .copyResource "p/i.png".data,
        .writeBundle "bundle.js".data, .writeManifest] :=
  C3_step_order idMinifiers fsWidget gfSrc "/t".data "widget".data
    (some [0, 1]) depNone resWidget
    { manifest := { name := bundleDirName "widget".data,
                    main := ["p/i.png".data, "bundle.js".data],
                    version := "x".data },
      bundleFiles := [("bundle.js".data, "x\n".data)],
      staged := [],
      events := [.ensureDir, .classify, .copyResource "p/i.png".data,
                 .writeBundle "bundle.js".data, .writeManifest] }
    (by rfl)

/-- C5: a component with no declared inclusions classifies to an empty
mapping (no error), and its build succeeds with a manifest whose `main`
array is empty. -/
theorem C5_empty_inclusions {ι : Type} [DecidableEq ι] (M : Minifiers)
    (fs : Str → Option Str) (gf : Str → Str → Str → Str → Str)
    (targetRoot componentName : Str) (depf : ι → List ι) (resOf : ι → ResourceInfo) :
    get_resources_by_type gf (none : Option (List ι)) depf resOf = .ok [] ∧
    get_resources_by_type gf (some ([] : List ι)) depf resOf = .ok [] ∧
    ∃ out, buildComponent M fs gf targetRoot componentName
        (none : Option (List ι)) depf resOf = .ok out ∧
      out.manifest.main = [] := by
  refine ⟨rfl, rfl,
    ⟨⟨⟨bundleDirName componentName, [], []⟩, [], [],
      [.ensureDir, .classify, .writeManifest]⟩, rfl, rfl⟩⟩

/-! Lemmas about the topological sort. -/

lemma indexOf_append_left {α : Type} [DecidableEq α] (x : α) (l l' : List α) (h : x ∈ l) :
    (l ++ l').indexOf x = l.indexOf x := by
  induction l with
  | nil => cases h
  | cons a l ih =>
    by_cases hax : a = x
    · subst hax
      rw [List.cons_append, List.indexOf_cons_self, List.indexOf_cons_self]
    · have hx : x ∈ l := by
        rcases List.mem_cons.mp h with h' | h'
        · exact absurd h'.symm hax
        · exact h'
      rw [List.cons_append, List.indexOf_cons_ne _ hax, List.indexOf_cons_ne _ hax, ih hx]

lemma indexOf_concat_self {α : Type} [DecidableEq α] (n : α) (l : List α) (h : n ∉ l) :
    (l ++ [n]).indexOf n = l.length := by
  induction l with
  | nil => simp
  | cons a l ih =>
    have han : a ≠ n := fun hh => h (hh ▸ List.mem_cons_self a l)
    have hnl : n ∉ l := fun hh => h (List.mem_cons_of_mem a hh)
    rw [List.cons_append, List.indexOf_cons_ne _ han, ih hnl, List.length_cons]

lemma goodOrder_append {α : Type} [DecidableEq α] (deps : α → List α) (acc : List α) (n : α)
    (hgo : GoodOrder deps acc) (hnacc : n ∉ acc) (hdeps : ∀ d ∈ deps n, d ∈ acc) :
    GoodOrder deps (acc ++ [n]) := by
  intro a ha d hd
  rcases List.mem_append.mp ha with h | h
  · obtain ⟨hdm, hidx⟩ := hgo a h d hd
    refine ⟨List.mem_append_left _ hdm, ?_⟩
    rw [indexOf_append_left d acc [n] hdm, indexOf_append_left a acc [n] h]
    exact hidx
  · have han : a = n := by simpa using h
    subst han
    have hdm := hdeps d hd
    refine ⟨List.mem_append_left _ hdm, ?_⟩
    rw [indexOf_append_left d acc [a] hdm, indexOf_concat_self a acc hnacc]
    exact List.indexOf_lt_length.mpr hdm

lemma pickReady_some {α : Type} [DecidableEq α] (deps : α → List α) (acc remaining : List α)
    (n : α) (h : pickReady deps acc remaining = some n) :
    n ∈ remaining ∧ ∀ d ∈ deps n, d ∈ acc := by
  refine ⟨List.mem_of_find?_eq_some h, ?_⟩
  have := List.find?_some h
  simpa [List.all_eq_true] using this

lemma topoAux_ok_inv {α : Type} [DecidableEq α] (deps : α → List α) (nodes : List α)
    (hnd : nodes.Nodup) :
    ∀ (fuel : Nat) (acc remaining l : List α),
      topoAux deps fuel acc remaining = .ok l →
      (acc ++ remaining).Perm nodes → GoodOrder deps acc →
      l.Perm nodes ∧ GoodOrder deps l := by
  intro fuel
  induction fuel with
  | zero =>
    intro acc remaining l hok hperm hgo
    rw [topoAux] at hok
    by_cases hre : remaining.isEmpty
    · rw [if_pos hre] at hok
      injection hok with h
      subst h
      have he : remaining = [] := List.isEmpty_iff.mp hre
      subst he
      exact ⟨by simpa using hperm, hgo⟩
    · rw [if_neg hre] at hok
      cases hok
  | succ fuel ih =>
    intro acc remaining l hok hperm hgo
    rw [topoAux] at hok
    by_cases hre : remaining.isEmpty
    · rw [if_pos hre] at hok
      injection hok with h
      subst h
      have he : remaining = [] := List.isEmpty_iff.mp hre
      subst he
      exact ⟨by simpa using hperm, hgo⟩
    · rw [if_neg hre] at hok
      cases hpick : pickReady deps acc remaining with
      | none => rw [hpick] at hok; cases hok
      | some n =>
        rw [hpick] at hok
        obtain ⟨hn_mem, hn_deps⟩ := pickReady_some deps acc remaining n hpick
        have hnd_ar : (acc ++ remaining).Nodup := hperm.symm.nodup hnd
        have hnacc : n ∉ acc := by
          have hdisj := List.disjoint_of_nodup_append hnd_ar
          intro hna
          exact hdisj hna hn_mem
        have hperm' : ((acc ++ [n]) ++ remaining.erase n).Perm nodes := by
          rw [List.append_assoc]
          exact (List.Perm.append_left acc ((List.perm_cons_erase hn_mem).symm)).trans hperm
        have hgo' : GoodOrder deps (acc ++ [n]) :=
          goodOrder_append deps acc n hgo hnacc hn_deps
        exact ih (acc ++ [n]) (remaining.erase n) l hok hperm' hgo'

lemma exists_cycle {α : Type} (deps : α → List α) (rem : List α) (hne : rem ≠ [])
    (h : ∀ m ∈ rem, ∃ d, d ∈ deps m ∧ d ∈ rem) :
    ∃ m ∈ rem, Relation.TransGen (fun a b => a ∈ deps b) m m := by
  classical
  have hS : ∀ x : {x : α // x ∈ rem}, ∃ d, d ∈ deps x.1 ∧ d ∈ rem := fun x => h x.1 x.2
  let g : {x : α // x ∈ rem} → {x : α // x ∈ rem} :=
    fun x => ⟨(hS x).choose, (hS x).choose_spec.2⟩
  have hg : ∀ x, (g x).1 ∈ deps x.1 := fun x => (hS x).choose_spec.1
  let x0 : {x : α // x ∈ rem} := ⟨rem.head hne, List.head_mem hne⟩
  let G : Nat → {x : α // x ∈ rem} := fun k => g^[k] x0
  have hstep : ∀ k, (G (k + 1)).1 ∈ deps (G k).1 := by
    intro k
    have hit : G (k + 1) = g (G k) := Function.iterate_succ_apply' g k x0
    rw [hit]
    exact hg (G k)
  have hchain : ∀ i k, Relation.TransGen (fun a b => a ∈ deps b) (G (i + k + 1)).1 (G i).1 := by
    intro i k
    induction k with
    | zero => exact Relation.TransGen.single (hstep i)
    | succ k ihk => exact Relation.TransGen.head (hstep (i + k + 1)) ihk
  have hmt : ∀ k ∈ Finset.range (rem.length + 1), (G k).1 ∈ rem.toFinset :=
    fun k _ => List.mem_toFinset.mpr (G k).2
  have hcard : rem.toFinset.card < (Finset.range (rem.length + 1)).card := by
    rw [Finset.card_range]
    exact Nat.lt_succ_of_le rem.toFinset_card_le
  obtain ⟨i, hi, j, hj, hij, hGij⟩ :=
    Finset.exists_ne_map_eq_of_card_lt_of_maps_to hcard hmt
  rcases Nat.lt_or_ge i j with hlt | hge
  · refine ⟨(G i).1, (G i).2, ?_⟩
    have hk : i + (j - i - 1) + 1 = j := by omega
    have hc := hchain i (j - i - 1)
    rw [hk] at hc
    rw [← hGij] at hc
    exact hc
  · have hlt : j < i := by omega
    refine ⟨(G j).1, (G j).2, ?_⟩
    have hk : j + (i - j - 1) + 1 = i := by omega
    have hc := hchain j (i - j - 1)
    rw [hk] at hc
    rw [hGij] at hc
    exact hc

lemma topoAux_complete {α : Type} [DecidableEq α] (deps : α → List α) (nodes : List α)
    (hclosed : ∀ x ∈ nodes, ∀ d ∈ deps x, d ∈ nodes) (hnocyc : ¬ DepCycle deps nodes) :
    ∀ (fuel : Nat) (acc remaining : List α),
      remaining.length ≤ fuel → (acc ++ remaining).Perm nodes →
      ∃ l, topoAux deps fuel acc remaining = .ok l := by
  intro fuel
  induction fuel with
  | zero =>
    intro acc remaining hlen _
    have he : remaining = [] := List.eq_nil_of_length_eq_zero (Nat.le_zero.mp hlen)
    subst he
    exact ⟨acc, rfl⟩
  | succ fuel ih =>
    intro acc remaining hlen hperm
    by_cases hre : remaining.isEmpty
    · have he : remaining = [] := List.isEmpty_iff.mp hre
      subst he
      exact ⟨acc, rfl⟩
    · have hrne : remaining ≠ [] := fun hh => hre (by simp [hh])
      cases hpick : pickReady deps acc remaining with
      | some n =>
        obtain ⟨hn_mem, _⟩ := pickReady_some deps acc remaining n hpick
        have hlen' : (remaining.erase n).length ≤ fuel := by
          rw [List.length_erase_of_mem hn_mem]
          have hpos : 0 < remaining.length := List.length_pos.mpr hrne
          omega
        have hperm' : ((acc ++ [n]) ++ remaining.erase n).Perm nodes := by
          rw [List.append_assoc]
          exact (List.Perm.append_left acc ((List.perm_cons_erase hn_mem).symm)).trans hperm
        obtain ⟨l, hl⟩ := ih (acc ++ [n]) (remaining.erase n) hlen' hperm'
        refine ⟨l, ?_⟩
        rw [topoAux, if_neg hre, hpick]
        exact hl
      | none =>
        exfalso
        have hall : ∀ m ∈ remaining, ∃ d, d ∈ deps m ∧ d ∈ remaining := by
          intro m hm
          have hfind := List.find?_eq_none.mp hpick m hm
          have hex : ∃ d ∈ deps m, d ∉ acc := by
            by_contra hcon
            push_neg at hcon
            apply hfind
            simpa [List.all_eq_true] using hcon
          obtain ⟨d, hd, hdnacc⟩ := hex
          have hmnodes : m ∈ nodes := hperm.mem_iff.mp (List.mem_append_right acc hm)
          have hdnodes : d ∈ nodes := hclosed m hmnodes d hd
          have hdar : d ∈ acc ++ remaining := hperm.mem_iff.mpr hdnodes
          rcases List.mem_append.mp hdar with hcase | hcase
          · exact absurd hcase hdnacc
          · exact ⟨d, hd, hcase⟩
        obtain ⟨m, hm, hcyc⟩ := exists_cycle deps remaining hrne hall
        exact hnocyc ⟨m, hperm.mem_iff.mp (List.mem_append_right acc hm), hcyc⟩

lemma goodOrder_transGen_index {α : Type} [DecidableEq α] (deps : α → List α) (l : List α)
    (hgo : GoodOrder deps l) :
    ∀ a b, Relation.TransGen (fun x y => x ∈ deps y) b a → a ∈ l →
      b ∈ l ∧ l.indexOf b < l.indexOf a := by
  intro a b htg
  induction htg with
  | single h =>
    intro ha
    exact hgo _ ha _ h
  | tail hbc hca ih =>
    intro ha
    obtain ⟨hc, hic⟩ := hgo _ ha _ hca
    obtain ⟨hb, hib⟩ := ih hc
    exact ⟨hb, lt_trans hib hic⟩

/-- C6: the topological ordering step (spec-modelled, see
`topological_sort`) fails with `CycleError` on every dependency relation
with a cycle among the nodes — it is a total function, so it cannot loop
forever, and it never returns a truncated ordering — and on every acyclic
relation it returns each node exactly once (a permutation of the nodes)
with every direct and transitive dependency at a strictly earlier
position. -/
theorem C6_toposort_contract (α : Type) [DecidableEq α] (deps : α → List α)
    (nodes : List α) (hnd : nodes.Nodup)
    (hclosed : ∀ x ∈ nodes, ∀ d ∈ deps x, d ∈ nodes) :
    (DepCycle deps nodes → topological_sort nodes deps = .error ⟨⟩) ∧
    (¬ DepCycle deps nodes →
      ∃ l, topological_sort nodes deps = .ok l ∧ l.Perm nodes ∧
        (∀ a ∈ l, ∀ d ∈ deps a, d ∈ l ∧ l.indexOf d < l.indexOf a) ∧
        (∀ a b, a ∈ l → Relation.TransGen (fun x y => x ∈ deps y) b a →
          b ∈ l ∧ l.indexOf b < l.indexOf a)) := by
  constructor
  · intro hcyc
    cases hts : topological_sort nodes deps with
    | error e => cases e; rfl
    | ok l =>
      exfalso
      obtain ⟨hperm, hgo⟩ := topoAux_ok_inv deps nodes hnd nodes.length [] nodes l hts
        (by simp)
        (fun a ha => absurd ha (List.not_mem_nil a))
      obtain ⟨n, hn, htg⟩ := hcyc
      have hnl : n ∈ l := hperm.mem_iff.mpr hn
      obtain ⟨_, hlt⟩ := goodOrder_transGen_index deps l hgo n n htg hnl
      exact lt_irrefl _ hlt
  · intro hnocyc
    obtain ⟨l, hl⟩ := topoAux_complete deps nodes hclosed hnocyc nodes.length [] nodes
      le_rfl (by simp)
    obtain ⟨hperm, hgo⟩ := topoAux_ok_inv deps nodes hnd nodes.length [] nodes l hl
      (by simp)
      (fun a ha => absurd ha (List.not_mem_nil a))
    exact ⟨l, hl, hperm, hgo,
      fun a b ha htg => goodOrder_transGen_index deps l hgo a b htg ha⟩

/-- C6 witness: on the two-node cycle the sort returns `CycleError`, and
on the two-node chain it returns an ordering with the dependency first. -/
theorem C6_witness :
    topological_sort [0, 1] depsCycW = .error ⟨⟩ ∧
    ∃ l, topological_sort [0, 1] depsLinW = .ok l ∧ l.Perm [0, 1] ∧
      (∀ a ∈ l, ∀ d ∈ depsLinW a, d ∈ l ∧ l.indexOf d < l.indexOf a) ∧
      (∀ a b, a ∈ l → Relation.TransGen (fun x y => x ∈ depsLinW y) b a →
        b ∈ l ∧ l.indexOf b < l.indexOf a) := by
  constructor
  · exact (C6_toposort_contract Nat depsCycW [0, 1] (by decide) (by decide)).1
      ⟨0, by decide,
        Relation.TransGen.head (show (0 : Nat) ∈ depsCycW 1 by decide)
          (Relation.TransGen.single (show (1 : Nat) ∈ depsCycW 0 by decide))⟩
  · have hstep : ∀ a b : Nat, a ∈ depsLinW b → b = 1 ∧ a = 0 := by
      intro a b hab
      by_cases hb : b = 1
      · subst hb
        simp [depsLinW] at hab
        exact ⟨rfl, hab⟩
      · simp [depsLinW, hb] at hab
    have hnocyc : ¬ DepCycle depsLinW [0, 1] := by
      rintro ⟨n, _, htg⟩
      obtain ⟨c, hnc, hcn⟩ := Relation.TransGen.head'_iff.mp htg
      obtain ⟨hc1, hn0⟩ := hstep n c hnc
      subst hc1
      subst hn0
      rcases Relation.ReflTransGen.cases_head hcn with hcase | ⟨d, h1d, _⟩
      · exact absurd hcase (by decide)
      · obtain ⟨_, h10⟩ := hstep 1 d h1d
        exact absurd h10 (by decide)
    exact (C6_toposort_contract Nat depsLinW [0, 1] (by decide) (by decide)).2 hnocyc
